import Mathlib

/-!
Verification of the bulk subtitle generator (`subtitle_generator.py`).

Shallow embedding of the program's core logic:

* `break_text_into_lines` — greedy word-wrap of caption text
  (source lines 218–247);
* `format_subtitle_lines` — SRT caption-track reflow, modelled as the pure
  content transformation performed between the file read and the file write
  (source lines 249–273);
* `computeStartIndex` / `filesToProcess` — the resume-slicing logic of
  `generate_subtitles_for_mp4s` (source lines 80–94);
* `runBatch` — the per-item processing loop of `generate_subtitles_for_mp4s`
  with its outcome classification, interruption handling and session counters
  (source lines 96–188), with the external collaborators (filesystem,
  `ffmpeg`, `whisper-cli`, arriving interruption signals) abstracted as an
  oracle `Env`;
* `load_resume_state` — checkpoint loading (source lines 190–199), with the
  outcome of `os.path.exists`/`open`/`json.load` abstracted as a
  `LoadOutcome` oracle value.

Strings are modelled as `List Char` (Python `len`, slicing and `split`
operate on characters).  Python's `str.split()` / `str.strip()` /
`re.split(r'\n\s*\n', ·)` whitespace class is modelled by the six ASCII
whitespace characters; the caption files at issue are ASCII-framed SRT.
-/

/-- The whitespace class of Python's `str.split()` / `str.strip()` / regex
`\s` (ASCII fragment). -/
def pyIsSpace (c : Char) : Bool :=
  c = ' ' || c = '\t' || c = '\n' || c = '\r' || c = '\x0b' || c = '\x0c'

/-- Accumulator worker for `pySplit`; `acc` holds the current word reversed. -/
def pySplitAux : List Char → List Char → List (List Char)
  | acc, [] => if acc.isEmpty then [] else [acc.reverse]
  | acc, c :: cs =>
    if pyIsSpace c then
      if acc.isEmpty then pySplitAux [] cs else acc.reverse :: pySplitAux [] cs
    else pySplitAux (c :: acc) cs

/-- Python `text.split()` (no argument): split on runs of whitespace,
dropping empty tokens (source line 220: `words = text.split()`). -/
def pySplit (s : List Char) : List (List Char) :=
  pySplitAux [] s

/-- Python `sep.join(pieces)` for a list-of-chars separator. -/
def joinSep (sep : List Char) : List (List Char) → List Char
  | [] => []
  | [b] => b
  | b :: bs => b ++ sep ++ joinSep sep bs

/-- Python `' '.join(pieces)` (source line 263 and the `f"{current_line} {word}"`
accumulation viewed at word level). -/
def joinSpace (g : List (List Char)) : List Char :=
  joinSep [' '] g

/-- Python `'\n'.join(lines)` (source line 247). -/
def joinNL (lines : List (List Char)) : List Char :=
  joinSep ['\n'] lines

/-- Python `'\n\n'.join(blocks)` (source line 273). -/
def joinDoubleNL (blocks : List (List Char)) : List Char :=
  joinSep ['\n', '\n'] blocks

/-- The hard-split `while` loop of `break_text_into_lines`
(source lines 239–241):

    while len(current_line) > max_chars_per_line:
        lines.append(current_line[:max_chars_per_line])
        current_line = current_line[max_chars_per_line:]

returning the appended chunks and the final `current_line`.  The source loop
is not structurally recursive (and for `maxW = 0` it never terminates), so it
is modelled with an explicit fuel argument; `hardSplit` runs it with fuel
`cur.length`, which is shown sufficient whenever `1 ≤ maxW`
(`hardSplitF_fuel_eq`), and the fuel-free divergence behaviour at `maxW = 0`
is captured separately by `hardSplitFuel`. -/
def hardSplitF : Nat → Nat → List Char → List (List Char) × List Char
  | 0, _, cur => ([], cur)
  | fuel + 1, maxW, cur =>
    if maxW < cur.length then
      let r := hardSplitF fuel maxW (cur.drop maxW)
      (cur.take maxW :: r.1, r.2)
    else ([], cur)

/-- The hard-split loop with adequate fuel (see `hardSplitF`). -/
def hardSplit (maxW : Nat) (cur : List Char) : List (List Char) × List Char :=
  hardSplitF cur.length maxW cur

/-- The guarded append `if current_line: lines.append(current_line)` of
the current line, as it occurs both inside the word loop (source
lines 235–236) and after it (source lines 243–244). -/
def flushLines (st : List (List Char) × List Char) : List (List Char) :=
  if st.2.isEmpty then st.1 else st.1 ++ [st.2]

/-- One iteration of the `for word in words` loop of `break_text_into_lines`
(source lines 224–241) acting on the state `(lines, current_line)`:
`test_line` is the word alone or `f"{current_line} {word}"`; if it fits it
becomes the current line, otherwise the non-empty current line is appended
and the word — hard-split if it alone exceeds the limit — starts the next
line. -/
def wrapStep (maxW : Nat) (st : List (List Char) × List Char) (word : List Char) :
    List (List Char) × List Char :=
  if (if st.2.isEmpty then word else st.2 ++ ' ' :: word).length ≤ maxW then
    (st.1, if st.2.isEmpty then word else st.2 ++ ' ' :: word)
  else
    (flushLines st ++ (hardSplit maxW word).1, (hardSplit maxW word).2)

/-- The list of lines produced by `break_text_into_lines`, before the final
`'\n'.join` (source lines 218–247, value of `lines[:max_lines_per_caption]`). -/
def break_text_into_lines_list (text : List Char) (maxW maxLines : Nat) :
    List (List Char) :=
  (flushLines ((pySplit text).foldl (wrapStep maxW) ([], []))).take maxLines

/-- The function `break_text_into_lines(text, max_chars_per_line, max_lines_per_caption)`
(source lines 218–247). -/
def break_text_into_lines (text : List Char) (maxW maxLines : Nat) : List Char :=
  joinNL (break_text_into_lines_list text maxW maxLines)

/-! ## `format_subtitle_lines` (source lines 249–273) -/

/-- Python `block.split('\n')` (source line 259): split at every newline, keeping
empty pieces. -/
def splitOnNL : List Char → List (List Char)
  | [] => [[]]
  | c :: cs =>
    if c = '\n' then [] :: splitOnNL cs
    else
      match splitOnNL cs with
      | [] => [[c]]
      | p :: ps => (c :: p) :: ps

/-- Python `s.strip()`: remove leading and trailing whitespace
(source line 254: `content.strip()`, source line 258: `block.strip()`). -/
def pyStrip (s : List Char) : List Char :=
  ((s.dropWhile pyIsSpace).reverse.dropWhile pyIsSpace).reverse

/-- The regex split `re.split(r'\n\s*\n', s)` (source line 254).  Scanning left to right, a
separator match starts at a `'\n'` that is followed, within the maximal
whitespace run after it, by at least one further `'\n'`; the greedy `\s*`
makes the match extend to the *last* `'\n'` of that run.  The recursion in
the separator branch consumes a data-dependent amount of input, so it is
driven by a fuel argument; `splitBlocks` supplies fuel `s.length`, which
`splitNLWSF_fuel_eq` shows sufficient. -/
def splitNLWSF : Nat → List Char → List (List Char)
  | _, [] => [[]]
  | 0, c :: cs => [c :: cs]
  | fuel + 1, c :: cs =>
    if c = '\n' ∧ '\n' ∈ cs.takeWhile pyIsSpace then
      let run := cs.takeWhile pyIsSpace
      let keep := (run.reverse.takeWhile (fun x => x ≠ '\n')).reverse
      [] :: splitNLWSF fuel (keep ++ cs.dropWhile pyIsSpace)
    else
      match splitNLWSF fuel cs with
      | [] => [c :: cs]
      | p :: ps => (c :: p) :: ps

/-- The regex split `re.split(r'\n\s*\n', s)` with adequate fuel (see `splitNLWSF`). -/
def splitBlocks (s : List Char) : List (List Char) :=
  splitNLWSF s.length s

/-- The body of the `for block in blocks` loop (source lines 258–270): a
block with at least 3 lines is reassembled as
`f"{index}\n{timing}\n{formatted_text}"` where `formatted_text` re-wraps
`' '.join(lines[2:])`; a shorter block is kept as is. -/
def processBlock (maxW maxLines : Nat) (block : List Char) : List Char :=
  match splitOnNL block with
  | l0 :: l1 :: l2 :: rest =>
    l0 ++ '\n' :: (l1 ++ '\n' :: break_text_into_lines (joinSpace (l2 :: rest)) maxW maxLines)
  | _ => block

/-- The blocks surviving `if not block.strip(): continue`
(source lines 254–258). -/
def keptBlocks (content : List Char) : List (List Char) :=
  (splitBlocks (pyStrip content)).filter (fun b => !(pyStrip b).isEmpty)

/-- The function `format_subtitle_lines` as the pure transformation applied to the file's
content (source lines 249–273): the written-back content is
`'\n\n'.join(formatted_blocks) + '\n\n'`. -/
def format_subtitle_lines (content : List Char) (maxW maxLines : Nat) : List Char :=
  joinDoubleNL ((keptBlocks content).map (processBlock maxW maxLines)) ++ ['\n', '\n']

/-! ## Resume slicing in `generate_subtitles_for_mp4s` (source lines 80–94) -/

/-- The value `start_index` as computed at source lines 80–87: `0` by default; when a
resume path is supplied (and truthy, i.e. non-empty — `if resume_from_file:`),
`list.index` finds its first occurrence, and the `ValueError` handler keeps
`0` when it does not occur. -/
def computeStartIndex (paths : List String) (resume : Option String) : Nat :=
  match resume with
  | none => 0
  | some r =>
    if r = "" then 0
    else if r ∈ paths then paths.findIdx (fun p => p == r) else 0

/-- The slice `files_to_process_session = all_mp4_full_paths[start_index:]`
(source line 89). -/
def filesToProcess (paths : List String) (resume : Option String) : List String :=
  paths.drop (computeStartIndex paths resume)

/-! ## The per-item loop of `generate_subtitles_for_mp4s` (source lines 96–188)

The external world (filesystem state, `ffmpeg` and `whisper-cli` exit
statuses, and whether an interruption signal arrives while a given item is
being processed) is abstracted as an oracle `Env` keyed by the item's path. -/

/-- Oracle for the external collaborators of one batch run. -/
structure Env where
  /-- Result of `os.path.exists(target_srt_path)` (source line 114). -/
  targetExists : String → Bool
  /-- a `KeyboardInterrupt` arrives while this item is being processed
  (caught at source line 173). -/
  interruptDuring : String → Bool
  /-- the `ffmpeg` invocation exits 0 (source line 63, `check=True`). -/
  preprocessOk : String → Bool
  /-- the `whisper-cli` invocation exits 0 (source line 140, `check=True`). -/
  transcribeOk : String → Bool
  /-- the expected `.srt` artifact exists in the temp dir (source line 149). -/
  srtProduced : String → Bool

/-- Classification of one iteration of the `for idx, mp4_path in ...` loop. -/
inductive ItemOutcome where
  | skipped | ok | failed | interrupted
deriving DecidableEq, Repr

/-- One item's fate, following the control flow of source lines 98–183:
the skip test (line 114), then `preprocess_audio` (line 121, a
`CalledProcessError` is caught at line 162), then the `whisper-cli` run
(line 140, same handler), then the check for the expected artifact
(lines 149–155, the `FileNotFoundError` is caught by the generic handler at
line 167).  A `KeyboardInterrupt` is delivered by the environment at item
granularity. -/
def processItem (env : Env) (skipExisting force : Bool) (f : String) : ItemOutcome :=
  if env.interruptDuring f then .interrupted
  else if !force && skipExisting && env.targetExists f then .skipped
  else if !env.preprocessOk f then .failed
  else if !env.transcribeOk f then .failed
  else if env.srtProduced f then .ok
  else .failed

/-- Observable result of one run of the processing loop. -/
structure RunResult where
  /-- Counter `session_processed_count` (source lines 42, 160). -/
  processed : Nat
  /-- Counter `session_error_count` (source lines 43, 166, 171). -/
  errored : Nat
  /-- the final `Processing complete` counts printed at source lines 185–187,
  `none` if the process exited before reaching them. -/
  finalSummary : Option (Nat × Nat)
  /-- Holds `some 130` when the run ended via `sys.exit(130)` (source line 183). -/
  exitCode : Option Nat
  /-- the path recorded by `save_resume_state` in the `KeyboardInterrupt`
  handler (source lines 177–178), when one was written. -/
  checkpointSaved : Option String
deriving DecidableEq, Repr

/-- The `for idx, mp4_path in enumerate(files_to_process_session)` loop
(source lines 97–188) with its session counters, ending either with the
summary printout or with the interrupt handler's checkpoint-and-exit. -/
def runBatch (env : Env) (skipExisting force : Bool) (statePath : Option String) :
    List String → Nat → Nat → RunResult
  | [], p, e => ⟨p, e, some (p, e), none, none⟩
  | f :: fs, p, e =>
    match processItem env skipExisting force f with
    | .interrupted =>
      ⟨p, e, none, some 130,
        match statePath with
        | some sp => if sp = "" then none else some f
        | none => none⟩
    | .skipped => runBatch env skipExisting force statePath fs p e
    | .ok => runBatch env skipExisting force statePath fs (p + 1) e
    | .failed => runBatch env skipExisting force statePath fs p (e + 1)

/-! ## `load_resume_state` (source lines 190–199) -/

/-- Values produced by Python's `json.load`. -/
inductive PyJson where
  | null
  | bool (b : Bool)
  | num (n : Int)
  | str (s : String)
  | arr (xs : List PyJson)
  | obj (fields : List (String × PyJson))

/-- What the filesystem/parser delivered for the state file: the file is
absent (`os.path.exists` false, source line 192), reading raised `IOError`,
parsing raised `json.JSONDecodeError` (both caught at source line 197), or
parsing succeeded with a JSON value. -/
inductive LoadOutcome where
  | absent
  | ioError
  | parseError
  | value (v : PyJson)

/-- How the call to `load_resume_state` ends: a normal return, or an
exception escaping the function. -/
inductive LoadResult where
  | returned (v : Option PyJson)
  | raisedAttributeError

/-- Python `dict.get(k)`: the value at the first matching key, else `None`. -/
def dictGet (fields : List (String × PyJson)) (k : String) : Option PyJson :=
  (fields.find? (fun kv => kv.1 == k)).map (fun kv => kv.2)

/-- The function `load_resume_state` (source lines 190–199).  The `try` block only
catches `json.JSONDecodeError` and `IOError`; `state.get(...)` assumes the
parsed value is a dict, and on any other JSON value the resulting
`AttributeError` escapes the function. -/
def load_resume_state : LoadOutcome → LoadResult
  | .absent => .returned none
  | .ioError => .returned none
  | .parseError => .returned none
  | .value (.obj fields) => .returned (dictGet fields "next_file_to_process")
  | .value _ => .raisedAttributeError

/-! ## Fueled variant of the wrap loop, for the termination claim -/

/-- The hard-split `while` loop (source lines 239–241) with divergence made
observable: `none` means the given fuel was exhausted with the loop guard
still true.  For `maxW = 0` and a non-empty `current_line` the loop makes no
progress (`current_line[0:] == current_line`), so every fuel yields `none`. -/
def hardSplitFuel : Nat → Nat → List Char → Option (List (List Char) × List Char)
  | 0, maxW, cur => if maxW < cur.length then none else some ([], cur)
  | fuel + 1, maxW, cur =>
    if maxW < cur.length then
      (hardSplitFuel fuel maxW (cur.drop maxW)).map
        (fun r => (cur.take maxW :: r.1, r.2))
    else some ([], cur)

/-- Variant of `wrapStep` with the observable hard-split loop, fueled by the word's
length. -/
def wrapStepO (maxW : Nat) (st : List (List Char) × List Char) (word : List Char) :
    Option (List (List Char) × List Char) :=
  if (if st.2.isEmpty then word else st.2 ++ ' ' :: word).length ≤ maxW then
    some (st.1, if st.2.isEmpty then word else st.2 ++ ' ' :: word)
  else
    (hardSplitFuel word.length maxW word).map
      (fun r => (flushLines st ++ r.1, r.2))

/-- Variant of `break_text_into_lines` with the observable hard-split loop: `some`
exactly when every hard-split loop encountered terminates. -/
def break_text_into_lines_opt (text : List Char) (maxW maxLines : Nat) :
    Option (List Char) :=
  ((pySplit text).foldlM (wrapStepO maxW) ([], [])).map
    (fun st => joinNL ((flushLines st).take maxLines))


/-! ## Lemmas: the joins -/

theorem joinSpace_cons_cons (b v : List Char) (bs : List (List Char)) :
    joinSpace (b :: v :: bs) = b ++ ' ' :: joinSpace (v :: bs) := by
  simp [joinSpace, joinSep]

theorem joinNL_cons_cons (b v : List Char) (bs : List (List Char)) :
    joinNL (b :: v :: bs) = b ++ '\n' :: joinNL (v :: bs) := by
  simp [joinNL, joinSep]

theorem joinSpace_append : ∀ (a b : List (List Char)), a ≠ [] → b ≠ [] →
    joinSpace (a ++ b) = joinSpace a ++ ' ' :: joinSpace b
  | [], _, ha, _ => absurd rfl ha
  | [w], v :: bs, _, _ => by
    rw [show [w] ++ v :: bs = w :: v :: bs from rfl, joinSpace_cons_cons]
    rfl
  | w :: w2 :: ws2, b, _, hb => by
    have ih := joinSpace_append (w2 :: ws2) b (by simp) hb
    calc joinSpace ((w :: w2 :: ws2) ++ b)
        = w ++ ' ' :: joinSpace ((w2 :: ws2) ++ b) := by
          rw [show (w :: w2 :: ws2) ++ b = w :: w2 :: (ws2 ++ b) from rfl,
            joinSpace_cons_cons]
          rfl
      _ = w ++ ' ' :: (joinSpace (w2 :: ws2) ++ ' ' :: joinSpace b) := by rw [ih]
      _ = joinSpace (w :: w2 :: ws2) ++ ' ' :: joinSpace b := by
          rw [joinSpace_cons_cons]
          simp

theorem joinSpace_concat (g : List (List Char)) (w : List Char) (hg : g ≠ []) :
    joinSpace (g ++ [w]) = joinSpace g ++ ' ' :: w :=
  joinSpace_append g [w] hg (by simp)

theorem joinSpace_ne_nil : ∀ (g : List (List Char)), g ≠ [] →
    (∀ w ∈ g, w ≠ []) → joinSpace g ≠ []
  | [], hg, _ => absurd rfl hg
  | [w], _, hw => by simpa [joinSpace, joinSep] using hw w (by simp)
  | w :: v :: gs, _, hw => by
    rw [joinSpace_cons_cons]
    have := hw w (by simp)
    simp [this]

theorem length_le_joinSpace : ∀ (g : List (List Char)) (w : List Char), w ∈ g →
    w.length ≤ (joinSpace g).length
  | [], w, h => absurd h (by simp)
  | [v], w, h => by
    rw [List.mem_singleton] at h
    subst h
    exact le_rfl
  | v :: v2 :: gs, w, h => by
    rw [joinSpace_cons_cons]
    rcases List.mem_cons.mp h with rfl | h2
    · simp
    · have := length_le_joinSpace (v2 :: gs) w h2
      simp only [List.length_append, List.length_cons]
      omega

/-! ## Lemmas: `pySplit` -/

theorem pySplitAux_sep {sep : Char} (hsep : pyIsSpace sep = true)
    (acc b : List Char) :
    pySplitAux acc (sep :: b) =
      (if acc.isEmpty then [] else [acc.reverse]) ++ pySplitAux [] b := by
  by_cases h : acc.isEmpty <;> simp [pySplitAux, hsep, h]

theorem pySplitAux_append_sep {sep : Char} (hsep : pyIsSpace sep = true) :
    ∀ (a acc b : List Char), pySplitAux acc (a ++ sep :: b) =
      pySplitAux acc a ++ pySplitAux [] b
  | [], acc, b => by
    rw [List.nil_append, pySplitAux_sep hsep]
    by_cases h : acc.isEmpty <;> simp [pySplitAux, h]
  | c :: a', acc, b => by
    by_cases hc : pyIsSpace c
    · by_cases h : acc.isEmpty <;>
        simp [pySplitAux, hc, h, pySplitAux_append_sep hsep a']
    · simp only [List.cons_append, pySplitAux, Bool.not_eq_true] at *
      simp [hc, pySplitAux_append_sep hsep a']

theorem pySplitAux_of_no_ws : ∀ (w acc : List Char),
    (∀ c ∈ w, pyIsSpace c = false) →
    pySplitAux acc w =
      if (acc.reverse ++ w).isEmpty then [] else [acc.reverse ++ w]
  | [], acc, _ => by
    cases acc with
    | nil => simp [pySplitAux]
    | cons a as => simp [pySplitAux]
  | c :: w', acc, hw => by
    have hc : pyIsSpace c = false := hw c (by simp)
    have ih := pySplitAux_of_no_ws w' (c :: acc) (fun x hx => hw x (by simp [hx]))
    simp only [pySplitAux, hc, Bool.false_eq_true, if_false, ih,
      List.reverse_cons, List.append_assoc, List.cons_append, List.nil_append]

theorem pySplit_word (w : List Char) (hne : w ≠ [])
    (hw : ∀ c ∈ w, pyIsSpace c = false) : pySplit w = [w] := by
  unfold pySplit
  rw [pySplitAux_of_no_ws w [] hw]
  simp [hne]

theorem pySplit_joinSpace : ∀ (g : List (List Char)),
    (∀ w ∈ g, w ≠ [] ∧ ∀ c ∈ w, pyIsSpace c = false) →
    pySplit (joinSpace g) = g
  | [], _ => rfl
  | [w], h => by
    have := h w (by simp)
    simpa [joinSpace, joinSep] using pySplit_word w this.1 this.2
  | w :: v :: gs, h => by
    rw [joinSpace_cons_cons]
    unfold pySplit
    rw [pySplitAux_append_sep (by decide) w [] (joinSpace (v :: gs))]
    have hw := h w (by simp)
    have ih := pySplit_joinSpace (v :: gs) (fun x hx => h x (by simp [List.mem_cons] at hx ⊢; tauto))
    unfold pySplit at ih
    rw [ih]
    have : pySplitAux [] w = [w] := pySplit_word w hw.1 hw.2
    rw [this]
    rfl

theorem pySplit_joinNL : ∀ (L : List (List Char)),
    pySplit (joinNL L) = (L.map pySplit).flatten
  | [] => rfl
  | [l] => by simp [joinNL, joinSep]
  | l :: v :: ls => by
    rw [joinNL_cons_cons]
    unfold pySplit
    rw [pySplitAux_append_sep (by decide) l [] (joinNL (v :: ls))]
    have ih := pySplit_joinNL (v :: ls)
    unfold pySplit at ih
    rw [ih]
    simp [pySplit]

theorem pySplitAux_mem : ∀ (s acc : List Char),
    (∀ c ∈ acc, pyIsSpace c = false) →
    ∀ w ∈ pySplitAux acc s, w ≠ [] ∧ ∀ c ∈ w, pyIsSpace c = false
  | [], acc, hacc => by
    cases acc with
    | nil => simp [pySplitAux]
    | cons a as =>
      simp only [pySplitAux, List.isEmpty_cons, Bool.false_eq_true, if_false]
      intro w hw
      rw [List.mem_singleton] at hw
      subst hw
      exact ⟨by simp, fun c hc => hacc c (List.mem_reverse.mp hc)⟩
  | c :: cs, acc, hacc => by
    by_cases hc : pyIsSpace c
    · cases acc with
      | nil => simpa [pySplitAux, hc] using pySplitAux_mem cs [] (by simp)
      | cons a as =>
        simp only [pySplitAux, hc, if_true, List.isEmpty_cons,
          Bool.false_eq_true, if_false]
        intro w hw
        rcases List.mem_cons.mp hw with rfl | hw2
        · exact ⟨by simp, fun x hx => hacc x (List.mem_reverse.mp hx)⟩
        · exact pySplitAux_mem cs [] (by simp) w hw2
    · simp only [pySplitAux, hc, Bool.false_eq_true, if_false]
      refine pySplitAux_mem cs (c :: acc) ?_
      intro x hx
      rcases List.mem_cons.mp hx with rfl | hx2
      · simpa using hc
      · exact hacc x hx2

theorem pySplit_mem (s : List Char) :
    ∀ w ∈ pySplit s, w ≠ [] ∧ ∀ c ∈ w, pyIsSpace c = false :=
  pySplitAux_mem s [] (by simp)

/-! ## Lemmas: the hard-split loop -/

theorem hardSplitF_join : ∀ (fuel maxW : Nat) (cur : List Char),
    (hardSplitF fuel maxW cur).1.flatten ++ (hardSplitF fuel maxW cur).2 = cur
  | 0, _, _ => by simp [hardSplitF]
  | fuel + 1, maxW, cur => by
    by_cases h : maxW < cur.length
    · have ih := hardSplitF_join fuel maxW (cur.drop maxW)
      simp only [hardSplitF, if_pos h, List.flatten_cons, List.append_assoc, ih]
      exact List.take_append_drop maxW cur
    · simp [hardSplitF, h]

theorem hardSplitF_chunk_length : ∀ (fuel maxW : Nat) (cur : List Char),
    ∀ c ∈ (hardSplitF fuel maxW cur).1, c.length = maxW
  | 0, _, _ => by simp [hardSplitF]
  | fuel + 1, maxW, cur => by
    by_cases h : maxW < cur.length
    · simp only [hardSplitF, if_pos h]
      intro c hc
      rcases List.mem_cons.mp hc with rfl | hc2
      · simp [Nat.min_eq_left (Nat.le_of_lt h)]
      · exact hardSplitF_chunk_length fuel maxW (cur.drop maxW) c hc2
    · simp [hardSplitF, h]

theorem hardSplitF_rest_length (maxW : Nat) (hW : 1 ≤ maxW) :
    ∀ (fuel : Nat) (cur : List Char), cur.length ≤ fuel + maxW →
    (hardSplitF fuel maxW cur).2.length ≤ maxW
  | 0, cur, hlen => by
    have : ¬ maxW < cur.length := by omega
    simpa [hardSplitF] using (by omega : cur.length ≤ maxW)
  | fuel + 1, cur, hlen => by
    by_cases h : maxW < cur.length
    · simp only [hardSplitF, if_pos h]
      refine hardSplitF_rest_length maxW hW fuel (cur.drop maxW) ?_
      simp only [List.length_drop]
      omega
    · simp only [hardSplitF, if_neg h]
      omega

theorem hardSplitF_rest_ne : ∀ (fuel maxW : Nat) (cur : List Char), cur ≠ [] →
    (hardSplitF fuel maxW cur).2 ≠ []
  | 0, _, cur, hne => hne
  | fuel + 1, maxW, cur, hne => by
    by_cases h : maxW < cur.length
    · simp only [hardSplitF, if_pos h]
      refine hardSplitF_rest_ne fuel maxW (cur.drop maxW) ?_
      have : (cur.drop maxW).length = cur.length - maxW := List.length_drop maxW cur
      intro hd
      rw [hd] at this
      simp at this
      omega
    · simpa [hardSplitF, h] using hne

theorem hardSplitF_chunks_ne (fuel maxW : Nat) (cur : List Char)
    (h : maxW < cur.length) (hf : 1 ≤ fuel) :
    (hardSplitF fuel maxW cur).1 ≠ [] := by
  cases fuel with
  | zero => omega
  | succ f => simp [hardSplitF, if_pos h]

theorem hardSplitF_fuel_eq (maxW : Nat) (hW : 1 ≤ maxW) :
    ∀ (f₁ f₂ : Nat) (cur : List Char), cur.length ≤ f₁ + maxW →
      cur.length ≤ f₂ + maxW →
      hardSplitF f₁ maxW cur = hardSplitF f₂ maxW cur
  | 0, f₂, cur, h₁, _ => by
    have hng : ¬ maxW < cur.length := by omega
    cases f₂ with
    | zero => rfl
    | succ f => simp [hardSplitF, hng]
  | f₁ + 1, f₂, cur, h₁, h₂ => by
    cases f₂ with
    | zero =>
      have hng : ¬ maxW < cur.length := by omega
      simp [hardSplitF, hng]
    | succ f =>
      by_cases h : maxW < cur.length
      · simp only [hardSplitF, if_pos h]
        rw [hardSplitF_fuel_eq maxW hW f₁ f (cur.drop maxW)
          (by simp only [List.length_drop]; omega)
          (by simp only [List.length_drop]; omega)]
      · simp [hardSplitF, h]

theorem hardSplit_of_le (maxW : Nat) (cur : List Char)
    (h : cur.length ≤ maxW) : hardSplit maxW cur = ([], cur) := by
  unfold hardSplit
  cases cur with
  | nil => rfl
  | cons c cs =>
    have : ¬ maxW < (c :: cs).length := by omega
    simp only [List.length_cons, hardSplitF]
    rw [if_neg (by simpa using this)]

theorem hardSplit_join (maxW : Nat) (cur : List Char) :
    (hardSplit maxW cur).1.flatten ++ (hardSplit maxW cur).2 = cur :=
  hardSplitF_join cur.length maxW cur

theorem hardSplit_chunk_length (maxW : Nat) (cur : List Char) :
    ∀ c ∈ (hardSplit maxW cur).1, c.length = maxW :=
  hardSplitF_chunk_length cur.length maxW cur

theorem hardSplit_rest_length (maxW : Nat) (hW : 1 ≤ maxW) (cur : List Char) :
    (hardSplit maxW cur).2.length ≤ maxW :=
  hardSplitF_rest_length maxW hW cur.length cur (by omega)

theorem hardSplit_rest_ne (maxW : Nat) (cur : List Char) (hne : cur ≠ []) :
    (hardSplit maxW cur).2 ≠ [] :=
  hardSplitF_rest_ne cur.length maxW cur hne

theorem hardSplit_chunks_ne (maxW : Nat) (cur : List Char)
    (h : maxW < cur.length) : (hardSplit maxW cur).1 ≠ [] :=
  hardSplitF_chunks_ne cur.length maxW cur h (by omega)

theorem mem_of_mem_hardSplit_chunk {maxW : Nat} {w c : List Char} {x : Char}
    (hc : c ∈ (hardSplit maxW w).1) (hx : x ∈ c) : x ∈ w := by
  have hj := hardSplit_join maxW w
  rw [← hj]
  exact List.mem_append.mpr (Or.inl (List.mem_flatten.mpr ⟨c, hc, hx⟩))

theorem mem_of_mem_hardSplit_rest {maxW : Nat} {w : List Char} {x : Char}
    (hx : x ∈ (hardSplit maxW w).2) : x ∈ w := by
  have hj := hardSplit_join maxW w
  rw [← hj]
  exact List.mem_append.mpr (Or.inr hx)

/-! ## Lemmas: `wrapStep` case analysis -/

theorem joinSpace_singleton (w : List Char) : joinSpace [w] = w := by
  simp [joinSpace, joinSep]

theorem wrapStep_empty_fits {maxW : Nat} {lines : List (List Char)}
    {w : List Char} (h : w.length ≤ maxW) :
    wrapStep maxW (lines, []) w = (lines, w) := by
  simp [wrapStep, h]

theorem wrapStep_cons_fits {maxW : Nat} {lines : List (List Char)}
    {cur w : List Char} (hcur : cur ≠ [])
    (h : (cur ++ ' ' :: w).length ≤ maxW) :
    wrapStep maxW (lines, cur) w = (lines, cur ++ ' ' :: w) := by
  cases cur with
  | nil => cases hcur rfl
  | cons a as =>
    simp only [wrapStep, List.isEmpty_cons, Bool.false_eq_true, if_false]
    rw [if_pos h]

theorem wrapStep_cons_overflow {maxW : Nat} {lines : List (List Char)}
    {cur w : List Char} (hcur : cur ≠ [])
    (h : maxW < (cur ++ ' ' :: w).length) :
    wrapStep maxW (lines, cur) w =
      ((lines ++ [cur]) ++ (hardSplit maxW w).1, (hardSplit maxW w).2) := by
  cases cur with
  | nil => cases hcur rfl
  | cons a as =>
    simp only [wrapStep, List.isEmpty_cons, Bool.false_eq_true, if_false]
    rw [if_neg (by omega)]
    simp [flushLines]

theorem wrapStep_empty_big {maxW : Nat} {lines : List (List Char)}
    {w : List Char} (h : maxW < w.length) :
    wrapStep maxW (lines, []) w =
      (lines ++ (hardSplit maxW w).1, (hardSplit maxW w).2) := by
  have : ¬ w.length ≤ maxW := by omega
  simp [wrapStep, flushLines, this]

/-! ## The producer invariant: structure of the state of the word loop -/

/-- A token as produced by `pySplit`: non-empty and whitespace-free. -/
def GoodWord (w : List Char) : Prop :=
  w ≠ [] ∧ ∀ c ∈ w, pyIsSpace c = false

/-- A group of tokens forming one produced line, fitting in `maxW`. -/
def GoodGroup (maxW : Nat) (g : List (List Char)) : Prop :=
  g ≠ [] ∧ (∀ w ∈ g, GoodWord w) ∧ (joinSpace g).length ≤ maxW

/-- Greedy maximality between consecutive lines: the first token of the
second line would not have fit at the end of the first. -/
def AdjFull (maxW : Nat) (g g2 : List (List Char)) : Prop :=
  maxW < (joinSpace g).length + 1 + g2.headI.length

/-- Invariant of the `(lines, current_line)` state of the word loop: both
decompose into groups of whole non-empty whitespace-free tokens, every
closed line and the current line fit in `maxW`, consecutive lines satisfy
the greedy maximality condition, and the current line is empty only in the
initial state. -/
def StInv (maxW : Nat) (st : List (List Char) × List Char) : Prop :=
  ∃ gs gcur, st.1 = gs.map joinSpace ∧ st.2 = joinSpace gcur ∧
    (∀ g ∈ gs, GoodGroup maxW g) ∧
    (∀ w ∈ gcur, GoodWord w) ∧
    (joinSpace gcur).length ≤ maxW ∧
    (gcur = [] → gs = []) ∧
    List.Chain' (AdjFull maxW) (gs ++ if gcur = [] then [] else [gcur])

theorem chain_concat_of_big (maxW : Nat) :
    ∀ (L : List (List (List Char))) (z : List (List Char)),
      (∀ g ∈ L, maxW ≤ (joinSpace g).length) →
      List.Chain' (AdjFull maxW) (L ++ [z])
  | [], z, _ => List.chain'_singleton z
  | g :: L', z, h => by
    rw [List.cons_append, List.chain'_cons']
    refine ⟨?_, chain_concat_of_big maxW L' z (fun x hx => h x (by simp [hx]))⟩
    intro b _
    have := h g (by simp)
    unfold AdjFull
    omega

theorem chunkGroups_map (chunks : List (List Char)) :
    (chunks.map (fun c => [c])).map joinSpace = chunks := by
  rw [List.map_map]
  have : (joinSpace ∘ fun c => [c]) = id := by
    funext c
    exact joinSpace_singleton c
  rw [this, List.map_id]

theorem headI_append_of_ne {g : List (List Char)} (hg : g ≠ [])
    (t : List (List Char)) : (g ++ t).headI = g.headI := by
  cases g with
  | nil => cases hg rfl
  | cons a as => rfl

theorem chunkGroup_good (maxW : Nat) (hW : 1 ≤ maxW) (w : List Char)
    (hw : GoodWord w) :
    ∀ g ∈ (hardSplit maxW w).1.map (fun c => [c]), GoodGroup maxW g := by
  intro g hg
  rw [List.mem_map] at hg
  obtain ⟨c, hcmem, rfl⟩ := hg
  have hclen := hardSplit_chunk_length maxW w c hcmem
  refine ⟨by simp, ?_, by rw [joinSpace_singleton]; omega⟩
  intro x hx
  rw [List.mem_singleton] at hx
  subst hx
  refine ⟨?_, fun ch hch => hw.2 ch (mem_of_mem_hardSplit_chunk hcmem hch)⟩
  intro hbad
  rw [hbad] at hclen
  simp at hclen
  omega

theorem restGroup_good (maxW : Nat) (w : List Char) (hw : GoodWord w) :
    ∀ x ∈ [(hardSplit maxW w).2], GoodWord x := by
  intro x hx
  rw [List.mem_singleton] at hx
  subst hx
  exact ⟨hardSplit_rest_ne maxW w hw.1,
    fun ch hch => hw.2 ch (mem_of_mem_hardSplit_rest hch)⟩

theorem chunk_chain (maxW : Nat) (w : List Char) :
    List.Chain' (AdjFull maxW)
      ((hardSplit maxW w).1.map (fun c => [c]) ++ [[(hardSplit maxW w).2]]) := by
  refine chain_concat_of_big maxW _ _ ?_
  intro g hg
  rw [List.mem_map] at hg
  obtain ⟨c, hcmem, rfl⟩ := hg
  rw [joinSpace_singleton, hardSplit_chunk_length maxW w c hcmem]

theorem StInv_step (maxW : Nat) (hW : 1 ≤ maxW)
    (l : List (List Char)) (cur : List Char) (w : List Char)
    (hst : StInv maxW (l, cur)) (hw : GoodWord w) :
    StInv maxW (wrapStep maxW (l, cur) w) := by
  obtain ⟨gs, gcur, h1, h2, hgs, hgcur, hlen, hemp, hchain⟩ := hst
  simp only at h1 h2
  by_cases hc : gcur = []
  · -- the initial state: current line (and hence the line list) is empty
    subst hc
    have hgs0 : gs = [] := hemp rfl
    subst hgs0
    have hcur : cur = [] := by simpa [joinSpace, joinSep] using h2
    have hl : l = [] := by simpa using h1
    subst hcur hl
    by_cases hfit : w.length ≤ maxW
    · rw [wrapStep_empty_fits hfit]
      refine ⟨[], [w], rfl, (joinSpace_singleton w).symm, by simp,
        by simpa using hw, by rw [joinSpace_singleton]; exact hfit,
        by simp, by simp⟩
    · push_neg at hfit
      rw [wrapStep_empty_big (by omega)]
      refine ⟨(hardSplit maxW w).1.map (fun c => [c]), [(hardSplit maxW w).2],
        by simpa [List.map_map] using (chunkGroups_map (hardSplit maxW w).1).symm,
        (joinSpace_singleton _).symm,
        chunkGroup_good maxW hW w hw, restGroup_good maxW w hw,
        by rw [joinSpace_singleton]; exact hardSplit_rest_length maxW hW w,
        by simp, ?_⟩
      rw [if_neg (by simp)]
      exact chunk_chain maxW w
  · -- the current line is non-empty
    have hcurne : cur ≠ [] := by
      rw [h2]
      exact joinSpace_ne_nil gcur hc (fun x hx => (hgcur x hx).1)
    have hculen : cur.length = (joinSpace gcur).length := by rw [h2]
    have htest : (cur ++ ' ' :: w).length = cur.length + (w.length + 1) := by
      simp
    rw [if_neg hc] at hchain
    by_cases hfit : (cur ++ ' ' :: w).length ≤ maxW
    · -- the word is appended to the current line
      rw [wrapStep_cons_fits hcurne hfit]
      refine ⟨gs, gcur ++ [w], h1, ?_, hgs, ?_, ?_, by simp, ?_⟩
      · rw [joinSpace_concat gcur w hc, h2]
      · intro x hx
        rcases List.mem_append.mp hx with hx1 | hx2
        · exact hgcur x hx1
        · rw [List.mem_singleton] at hx2
          subst hx2
          exact hw
      · rw [joinSpace_concat gcur w hc, ← h2]
        exact hfit
      · rw [if_neg (by simp)]
        rw [List.chain'_append] at hchain ⊢
        refine ⟨hchain.1, List.chain'_singleton _, ?_⟩
        intro x hx y hy
        have hlink := hchain.2.2 x hx gcur (by simp)
        simp only [List.head?_cons, Option.mem_def, Option.some.injEq] at hy
        subst hy
        unfold AdjFull at hlink ⊢
        rw [headI_append_of_ne hc [w]]
        exact hlink
    · push_neg at hfit
      by_cases hbig : w.length ≤ maxW
      · -- line closed, word starts the next line unsplit
        rw [wrapStep_cons_overflow hcurne (by omega), hardSplit_of_le maxW w hbig]
        refine ⟨gs ++ [gcur], [w], by rw [h1, h2]; simp,
          (joinSpace_singleton _).symm, ?_, by simpa using hw,
          by rw [joinSpace_singleton]; exact hbig, by simp, ?_⟩
        · intro g hg
          rcases List.mem_append.mp hg with hg1 | hg2
          · exact hgs g hg1
          · rw [List.mem_singleton] at hg2
            subst hg2
            exact ⟨hc, hgcur, hlen⟩
        · rw [if_neg (by simp), List.chain'_append]
          refine ⟨hchain, List.chain'_singleton _, ?_⟩
          intro x hx y hy
          rw [List.getLast?_concat, Option.mem_def, Option.some.injEq] at hx
          simp only [List.head?_cons, Option.mem_def, Option.some.injEq] at hy
          subst hx hy
          unfold AdjFull
          simp only [List.headI]
          omega
      · -- line closed and the word is hard-split
        push_neg at hbig
        rw [wrapStep_cons_overflow hcurne (by omega)]
        have hchne := hardSplit_chunks_ne maxW w (by omega)
        obtain ⟨c0, cs, hcs⟩ := List.exists_cons_of_ne_nil hchne
        have hc0len : c0.length = maxW :=
          hardSplit_chunk_length maxW w c0 (by rw [hcs]; simp)
        refine ⟨(gs ++ [gcur]) ++ (hardSplit maxW w).1.map (fun c => [c]),
          [(hardSplit maxW w).2],
          by rw [h1, h2]
             simpa [List.map_map] using (chunkGroups_map (hardSplit maxW w).1).symm,
          (joinSpace_singleton _).symm, ?_,
          restGroup_good maxW w hw,
          by rw [joinSpace_singleton]; exact hardSplit_rest_length maxW hW w,
          by simp, ?_⟩
        · intro g hg
          rcases List.mem_append.mp hg with hg1 | hg2
          · rcases List.mem_append.mp hg1 with hg3 | hg4
            · exact hgs g hg3
            · rw [List.mem_singleton] at hg4
              subst hg4
              exact ⟨hc, hgcur, hlen⟩
          · exact chunkGroup_good maxW hW w hw g hg2
        · rw [if_neg (by simp), List.append_assoc, List.chain'_append]
          refine ⟨hchain, chunk_chain maxW w, ?_⟩
          intro x hx y hy
          rw [List.getLast?_concat, Option.mem_def, Option.some.injEq] at hx
          subst hx
          rw [hcs] at hy
          simp only [List.map_cons, List.cons_append, List.head?_cons,
            Option.mem_def, Option.some.injEq] at hy
          subst hy
          unfold AdjFull
          simp only [List.headI]
          omega

theorem StInv_init (maxW : Nat) : StInv maxW ([], []) :=
  ⟨[], [], rfl, rfl, by simp, by simp, by simp [joinSpace, joinSep],
    fun _ => rfl, by simp⟩

theorem StInv_foldl (maxW : Nat) (hW : 1 ≤ maxW) :
    ∀ (ws : List (List Char)) (st : List (List Char) × List Char),
      (∀ w ∈ ws, GoodWord w) → StInv maxW st →
      StInv maxW (ws.foldl (wrapStep maxW) st)
  | [], st, _, hst => hst
  | w :: ws', st, hws, hst => by
    rw [List.foldl_cons]
    exact StInv_foldl maxW hW ws' (wrapStep maxW st w)
      (fun x hx => hws x (by simp [hx]))
      (StInv_step maxW hW st.1 st.2 w (by simpa using hst) (hws w (by simp)))

theorem producer_struct (maxW : Nat) (hW : 1 ≤ maxW) (text : List Char)
    (maxLines : Nat) :
    ∃ G : List (List (List Char)),
      (∀ g ∈ G, GoodGroup maxW g) ∧
      List.Chain' (AdjFull maxW) G ∧
      G.length ≤ maxLines ∧
      break_text_into_lines_list text maxW maxLines = G.map joinSpace := by
  have hwords : ∀ w ∈ pySplit text, GoodWord w := fun w hw =>
    ⟨(pySplit_mem text w hw).1, (pySplit_mem text w hw).2⟩
  have hinv := StInv_foldl maxW hW (pySplit text) ([], []) hwords (StInv_init maxW)
  obtain ⟨gs, gcur, h1, h2, hgs, hgcur, hlen, hemp, hchain⟩ := hinv
  refine ⟨(gs ++ if gcur = [] then [] else [gcur]).take maxLines, ?_, ?_, ?_, ?_⟩
  · intro g hg
    have hg2 := List.take_subset maxLines _ hg
    rcases List.mem_append.mp hg2 with hg3 | hg4
    · exact hgs g hg3
    · by_cases hc : gcur = []
      · rw [if_pos hc] at hg4
        cases hg4
      · rw [if_neg hc, List.mem_singleton] at hg4
        subst hg4
        exact ⟨hc, hgcur, hlen⟩
  · exact hchain.take maxLines
  · exact List.length_take_le maxLines _
  · unfold break_text_into_lines_list
    rw [List.map_take]
    by_cases hc : gcur = []
    · subst hc
      have hgs0 : gs = [] := hemp rfl
      subst hgs0
      have hcur : (List.foldl (wrapStep maxW) ([], []) (pySplit text)).2 = [] := by
        rw [h2]; rfl
      have hlin : (List.foldl (wrapStep maxW) ([], []) (pySplit text)).1 = [] := by
        rw [h1]; rfl
      unfold flushLines
      rw [hcur, hlin]
      simp
    · have hcurne : (List.foldl (wrapStep maxW) ([], []) (pySplit text)).2 ≠ [] := by
        rw [h2]
        exact joinSpace_ne_nil gcur hc (fun x hx => (hgcur x hx).1)
      unfold flushLines
      rw [if_neg (by simpa [List.isEmpty_iff] using hcurne)]
      rw [if_neg hc, h1, h2]
      simp

/-! ## The consumer side: re-wrapping an already-wrapped line sequence -/

theorem joinSpace_length_mono_append (a b : List (List Char)) (ha : a ≠ []) :
    (joinSpace a).length ≤ (joinSpace (a ++ b)).length := by
  cases b with
  | nil => simp
  | cons v bs =>
    rw [joinSpace_append a (v :: bs) ha (by simp)]
    simp

theorem group_fold_inner (maxW : Nat) :
    ∀ (rest : List (List Char)) (lines pre : List (List Char)), pre ≠ [] →
      (∀ w ∈ pre ++ rest, GoodWord w) →
      (joinSpace (pre ++ rest)).length ≤ maxW →
      rest.foldl (wrapStep maxW) (lines, joinSpace pre) =
        (lines, joinSpace (pre ++ rest))
  | [], lines, pre, _, _, _ => by simp
  | w :: rest', lines, pre, hpre, hgood, hlen => by
    have hassoc : pre ++ w :: rest' = (pre ++ [w]) ++ rest' := by simp
    have hjpre : joinSpace pre ≠ [] :=
      joinSpace_ne_nil pre hpre (fun x hx => (hgood x (by simp [hx])).1)
    have hfit : (joinSpace pre ++ ' ' :: w).length ≤ maxW := by
      rw [← joinSpace_concat pre w hpre]
      refine le_trans ?_ hlen
      rw [hassoc]
      exact joinSpace_length_mono_append (pre ++ [w]) rest' (by simp)
    rw [List.foldl_cons, wrapStep_cons_fits hjpre hfit,
      ← joinSpace_concat pre w hpre, hassoc]
    exact group_fold_inner maxW rest' lines (pre ++ [w]) (by simp)
      (by rw [← hassoc]; exact hgood) (by rw [← hassoc]; exact hlen)

theorem group_fold (maxW : Nat) (lines : List (List Char))
    (g : List (List Char)) (hg : g ≠ []) (hgood : ∀ w ∈ g, GoodWord w)
    (hlen : (joinSpace g).length ≤ maxW) :
    g.foldl (wrapStep maxW) (lines, []) = (lines, joinSpace g) := by
  cases g with
  | nil => cases hg rfl
  | cons w grest =>
    have hfitw : w.length ≤ maxW :=
      le_trans (length_le_joinSpace (w :: grest) w (by simp)) hlen
    rw [List.foldl_cons, wrapStep_empty_fits hfitw]
    have hinner := group_fold_inner maxW grest lines [w] (by simp)
      (by simpa using hgood) (by simpa using hlen)
    rw [joinSpace_singleton] at hinner
    simpa using hinner

theorem refold_aux (maxW : Nat) :
    ∀ (G : List (List (List Char))) (lines : List (List Char))
      (gprev : List (List Char)),
      GoodGroup maxW gprev →
      (∀ g ∈ G, GoodGroup maxW g) →
      List.Chain' (AdjFull maxW) (gprev :: G) →
      G.flatten.foldl (wrapStep maxW) (lines, joinSpace gprev) =
        (lines ++ (gprev :: G).dropLast.map joinSpace,
          joinSpace (G.getLastD gprev))
  | [], lines, gprev, _, _, _ => by simp
  | g :: G', lines, gprev, hprev, hG, hchain => by
    have hgG : GoodGroup maxW g := hG g (by simp)
    obtain ⟨w0, grest, rfl⟩ := List.exists_cons_of_ne_nil hgG.1
    have hjprev : joinSpace gprev ≠ [] :=
      joinSpace_ne_nil gprev hprev.1 (fun x hx => (hprev.2.1 x hx).1)
    have hadj : AdjFull maxW gprev (w0 :: grest) := (List.chain'_cons.mp hchain).1
    have hw0len : w0.length ≤ maxW :=
      le_trans (length_le_joinSpace (w0 :: grest) w0 (by simp)) hgG.2.2
    have hover : maxW < (joinSpace gprev ++ ' ' :: w0).length := by
      unfold AdjFull at hadj
      simp only [List.headI] at hadj
      simp only [List.length_append, List.length_cons]
      omega
    rw [List.flatten_cons, List.foldl_append, List.foldl_cons,
      wrapStep_cons_overflow hjprev hover, hardSplit_of_le maxW w0 hw0len]
    simp only [List.append_nil]
    have hinner := group_fold_inner maxW grest (lines ++ [joinSpace gprev]) [w0]
      (by simp) (by simpa using hgG.2.1) (by simpa using hgG.2.2)
    rw [joinSpace_singleton] at hinner
    rw [show ([w0] ++ grest) = w0 :: grest from rfl] at hinner
    rw [hinner]
    have hrec := refold_aux maxW G' (lines ++ [joinSpace gprev]) (w0 :: grest)
      hgG (fun x hx => hG x (by simp [hx])) (List.chain'_cons.mp hchain).2
    rw [hrec, List.getLastD_cons]
    rw [show (gprev :: (w0 :: grest) :: G').dropLast =
      gprev :: ((w0 :: grest) :: G').dropLast from rfl]
    simp

theorem greedy_refold (maxW : Nat) :
    ∀ (G : List (List (List Char))),
      (∀ g ∈ G, GoodGroup maxW g) →
      List.Chain' (AdjFull maxW) G →
      G.flatten.foldl (wrapStep maxW) ([], []) =
        (G.dropLast.map joinSpace, joinSpace (G.getLastD []))
  | [], _, _ => rfl
  | g :: G', hG, hchain => by
    have hgG := hG g (by simp)
    rw [List.flatten_cons, List.foldl_append,
      group_fold maxW [] g hgG.1 hgG.2.1 hgG.2.2]
    rw [refold_aux maxW G' [] g hgG (fun x hx => hG x (by simp [hx])) hchain,
      List.getLastD_cons]
    simp

theorem wrap_list_fixed (maxW maxLines : Nat)
    (G : List (List (List Char)))
    (hG : ∀ g ∈ G, GoodGroup maxW g)
    (hchain : List.Chain' (AdjFull maxW) G)
    (hlen : G.length ≤ maxLines) :
    break_text_into_lines_list (joinNL (G.map joinSpace)) maxW maxLines =
      G.map joinSpace := by
  unfold break_text_into_lines_list
  have hsplit : pySplit (joinNL (G.map joinSpace)) = G.flatten := by
    rw [pySplit_joinNL, List.map_map]
    have hcongr : G.map (pySplit ∘ joinSpace) = G.map id := by
      refine List.map_congr_left ?_
      intro g hg
      have := hG g hg
      exact pySplit_joinSpace g (fun w hw => ⟨(this.2.1 w hw).1, (this.2.1 w hw).2⟩)
    rw [hcongr, List.map_id]
  rw [hsplit, greedy_refold maxW G hG hchain]
  rcases List.eq_nil_or_concat G with rfl | ⟨G₀, glast, hGeq⟩
  · simp [flushLines, joinSpace, joinSep]
  · rw [List.concat_eq_append] at hGeq
    subst hGeq
    have hlast : GoodGroup maxW glast := hG glast (by simp)
    have hjlast : joinSpace glast ≠ [] :=
      joinSpace_ne_nil glast hlast.1 (fun x hx => (hlast.2.1 x hx).1)
    rw [List.getLastD_concat, List.dropLast_concat]
    unfold flushLines
    rw [if_neg (by simpa [List.isEmpty_iff] using hjlast)]
    rw [List.map_append]
    rw [List.take_of_length_le (by simpa using hlen)]
    simp

/-! ## The no-hard-split invariant, for word-boundary preservation -/

/-- Invariant of the word-fold state when every word fits in `maxW`: the
state decomposes into groups of whole consumed words, in order, and nothing
has been split. -/
def NoSplitInv (st : List (List Char) × List Char)
    (consumed : List (List Char)) : Prop :=
  ∃ (gs : List (List (List Char))) (gcur : List (List Char)),
    st.1 = gs.map joinSpace ∧ st.2 = joinSpace gcur ∧
    (∀ g ∈ gs, g ≠ []) ∧ (∀ w ∈ gcur, GoodWord w) ∧
    (∀ g ∈ gs, ∀ w ∈ g, GoodWord w) ∧
    gs.flatten ++ gcur = consumed

theorem noSplit_step (maxW : Nat) (st : List (List Char) × List Char)
    (w : List Char) (consumed : List (List Char))
    (hst : NoSplitInv st consumed) (hw : GoodWord w) (hwlen : w.length ≤ maxW) :
    NoSplitInv (wrapStep maxW st w) (consumed ++ [w]) := by
  obtain ⟨gs, gcur, h1, h2, hgs, hgcur, hgsw, hflat⟩ := hst
  obtain ⟨l, cur⟩ := st
  simp only at h1 h2
  subst h1 h2
  by_cases hc : gcur = []
  · subst hc
    rw [show joinSpace ([] : List (List Char)) = [] from rfl,
      wrapStep_empty_fits hwlen]
    exact ⟨gs, [w], rfl, (joinSpace_singleton w).symm, hgs,
      by simpa using hw, hgsw, by rw [← hflat]; simp⟩
  · have hcurne : joinSpace gcur ≠ [] :=
      joinSpace_ne_nil gcur hc (fun x hx => (hgcur x hx).1)
    by_cases hfit : (joinSpace gcur ++ ' ' :: w).length ≤ maxW
    · rw [wrapStep_cons_fits hcurne hfit, ← joinSpace_concat gcur w hc]
      refine ⟨gs, gcur ++ [w], rfl, rfl, hgs, ?_, hgsw, ?_⟩
      · intro x hx
        rcases List.mem_append.mp hx with h | h
        · exact hgcur x h
        · rw [List.mem_singleton] at h
          subst h
          exact hw
      · rw [← hflat]
        simp
    · push_neg at hfit
      rw [wrapStep_cons_overflow hcurne hfit, hardSplit_of_le maxW w hwlen]
      simp only [List.append_nil]
      refine ⟨gs ++ [gcur], [w], by simp, (joinSpace_singleton w).symm, ?_,
        by simpa using hw, ?_, ?_⟩
      · intro g hg
        rcases List.mem_append.mp hg with h | h
        · exact hgs g h
        · rw [List.mem_singleton] at h
          subst h
          exact hc
      · intro g hg
        rcases List.mem_append.mp hg with h | h
        · exact hgsw g h
        · rw [List.mem_singleton] at h
          subst h
          exact hgcur
      · rw [← hflat]
        simp

theorem noSplit_foldl (maxW : Nat) :
    ∀ (ws : List (List Char)) (st : List (List Char) × List Char)
      (consumed : List (List Char)),
      (∀ w ∈ ws, GoodWord w ∧ w.length ≤ maxW) →
      NoSplitInv st consumed →
      NoSplitInv (ws.foldl (wrapStep maxW) st) (consumed ++ ws)
  | [], st, consumed, _, hst => by simpa using hst
  | w :: ws', st, consumed, hws, hst => by
    rw [List.foldl_cons]
    have hrec := noSplit_foldl maxW ws' (wrapStep maxW st w) (consumed ++ [w])
      (fun x hx => hws x (by simp [hx]))
      (noSplit_step maxW st w consumed hst (hws w (by simp)).1 (hws w (by simp)).2)
    simpa using hrec

theorem flatten_take_eq_take {α : Type} :
    ∀ (L : List (List α)) (n : Nat), ∃ k, (L.take n).flatten = L.flatten.take k
  | [], _ => ⟨0, by simp⟩
  | _ :: _, 0 => ⟨0, by simp⟩
  | g :: L', n + 1 => by
    obtain ⟨k, hk⟩ := flatten_take_eq_take L' n
    refine ⟨g.length + k, ?_⟩
    simp only [List.take_succ_cons, List.flatten_cons, hk,
      List.take_append_eq_append_take,
      List.take_of_length_le (Nat.le_add_right g.length k)]
    simp [Nat.add_sub_cancel_left]

/-! ## Relating the fueled wrap pipeline to the total one -/

theorem hardSplitFuel_eq (maxW : Nat) (hW : 1 ≤ maxW) :
    ∀ (fuel : Nat) (cur : List Char), cur.length ≤ fuel + maxW →
      hardSplitFuel fuel maxW cur = some (hardSplitF fuel maxW cur)
  | 0, cur, hlen => by
    have h : ¬ maxW < cur.length := by omega
    simp [hardSplitFuel, hardSplitF, h]
  | fuel + 1, cur, hlen => by
    by_cases h : maxW < cur.length
    · simp only [hardSplitFuel, hardSplitF, if_pos h]
      rw [hardSplitFuel_eq maxW hW fuel (cur.drop maxW)
        (by simp only [List.length_drop]; omega)]
      rfl
    · simp [hardSplitFuel, hardSplitF, h]

theorem wrapStepO_eq (maxW : Nat) (hW : 1 ≤ maxW)
    (st : List (List Char) × List Char) (w : List Char) :
    wrapStepO maxW st w = some (wrapStep maxW st w) := by
  unfold wrapStepO wrapStep
  by_cases h : (if st.2.isEmpty then w else st.2 ++ ' ' :: w).length ≤ maxW
  · rw [if_pos h, if_pos h]
  · rw [if_neg h, if_neg h]
    have hfe : hardSplitFuel w.length maxW w = some (hardSplitF w.length maxW w) :=
      hardSplitFuel_eq maxW hW w.length w (by omega)
    rw [hfe]
    rfl

theorem foldlM_wrapStepO (maxW : Nat) (hW : 1 ≤ maxW) :
    ∀ (ws : List (List Char)) (st : List (List Char) × List Char),
      ws.foldlM (wrapStepO maxW) st = some (ws.foldl (wrapStep maxW) st)
  | [], _ => rfl
  | w :: ws', st => by
    rw [List.foldlM_cons, wrapStepO_eq maxW hW st w]
    simpa using foldlM_wrapStepO maxW hW ws' (wrapStep maxW st w)

theorem break_opt_eq (text : List Char) (maxW maxLines : Nat) (hW : 1 ≤ maxW) :
    break_text_into_lines_opt text maxW maxLines =
      some (break_text_into_lines text maxW maxLines) := by
  unfold break_text_into_lines_opt break_text_into_lines break_text_into_lines_list
  rw [foldlM_wrapStepO maxW hW]
  rfl

/-! ## Claim theorems -/

/-- Claim C1: for `maxLineWidth ≥ 1`, every line produced by
`break_text_into_lines` has length at most `maxLineWidth`; a word longer
than `maxLineWidth` is hard-split into non-empty chunks of exactly
`maxLineWidth` characters whose concatenation with the remainder restores
the word, the remainder fits; and in the word loop such a word produces
exactly the flushed lines plus those chunks, with the remainder as the new
current line. -/
theorem C1_line_width_and_hard_split (maxW : Nat) (hW : 1 ≤ maxW) :
    (∀ (text : List Char) (maxLines : Nat),
      ∀ l ∈ break_text_into_lines_list text maxW maxLines, l.length ≤ maxW) ∧
    (∀ w : List Char, maxW < w.length →
      (hardSplit maxW w).1 ≠ [] ∧
      (∀ c ∈ (hardSplit maxW w).1, c.length = maxW) ∧
      (hardSplit maxW w).1.flatten ++ (hardSplit maxW w).2 = w ∧
      (hardSplit maxW w).2.length ≤ maxW) ∧
    (∀ (st : List (List Char) × List Char) (w : List Char), maxW < w.length →
      wrapStep maxW st w =
        (flushLines st ++ (hardSplit maxW w).1, (hardSplit maxW w).2)) := by
  refine ⟨?_, ?_, ?_⟩
  · intro text maxLines l hl
    obtain ⟨G, hG, _, _, hEq⟩ := producer_struct maxW hW text maxLines
    rw [hEq, List.mem_map] at hl
    obtain ⟨g, hg, rfl⟩ := hl
    exact (hG g hg).2.2
  · intro w hbig
    exact ⟨hardSplit_chunks_ne maxW w hbig, hardSplit_chunk_length maxW w,
      hardSplit_join maxW w, hardSplit_rest_length maxW hW w⟩
  · intro st w hbig
    obtain ⟨l, cur⟩ := st
    cases cur with
    | nil =>
      rw [wrapStep_empty_big hbig]
      rfl
    | cons a as =>
      rw [wrapStep_cons_overflow (by simp)
        (by simp only [List.length_append, List.length_cons]; omega)]
      rfl

/-- Witness for C1 at `maxLineWidth = 3`. -/
theorem C1_line_width_and_hard_split_witness :
    1 ≤ 3 ∧
    ((∀ (text : List Char) (maxLines : Nat),
      ∀ l ∈ break_text_into_lines_list text 3 maxLines, l.length ≤ 3) ∧
    (∀ w : List Char, 3 < w.length →
      (hardSplit 3 w).1 ≠ [] ∧
      (∀ c ∈ (hardSplit 3 w).1, c.length = 3) ∧
      (hardSplit 3 w).1.flatten ++ (hardSplit 3 w).2 = w ∧
      (hardSplit 3 w).2.length ≤ 3) ∧
    (∀ (st : List (List Char) × List Char) (w : List Char), 3 < w.length →
      wrapStep 3 st w =
        (flushLines st ++ (hardSplit 3 w).1, (hardSplit 3 w).2))) :=
  ⟨by decide, C1_line_width_and_hard_split 3 (by decide)⟩

/-- Claim C7: on `"one two three four five six seven"` with
`maxLineWidth = 10`, `maxLines = 2`, the wrap yields exactly the two lines
`"one two"` and `"three four"`, each of length at most 10, joined as
`"one two\nthree four"`, with the words `five six seven` absent from the
output. -/
theorem C7_concrete_example :
    break_text_into_lines "one two three four five six seven".toList 10 2 =
      "one two\nthree four".toList ∧
    break_text_into_lines_list "one two three four five six seven".toList 10 2 =
      ["one two".toList, "three four".toList] ∧
    (break_text_into_lines_list "one two three four five six seven".toList 10 2).length = 2 ∧
    (∀ l ∈ break_text_into_lines_list "one two three four five six seven".toList 10 2,
      l.length ≤ 10) ∧
    "five".toList ∉ pySplit (break_text_into_lines "one two three four five six seven".toList 10 2) ∧
    "six".toList ∉ pySplit (break_text_into_lines "one two three four five six seven".toList 10 2) ∧
    "seven".toList ∉ pySplit (break_text_into_lines "one two three four five six seven".toList 10 2) := by
  refine ⟨by decide, by decide, by decide, by decide, by decide, by decide, by decide⟩

/-- Claim C8: when every token of the text fits in `maxLineWidth`, no word
is split: the produced lines are space-joins of groups of whole input words,
the groups are non-empty, and their concatenation is a prefix (an initial
segment `take k`) of the input word sequence. -/
theorem C8_word_boundary_preservation (text : List Char) (maxW maxLines : Nat)
    (hW : 1 ≤ maxW)
    (hwords : ∀ w ∈ pySplit text, w.length ≤ maxW) :
    ∃ (parts : List (List (List Char))) (k : Nat),
      break_text_into_lines_list text maxW maxLines = parts.map joinSpace ∧
      (∀ p ∈ parts, p ≠ []) ∧
      parts.flatten = (pySplit text).take k := by
  have hin : NoSplitInv ([], []) [] :=
    ⟨[], [], rfl, rfl, by simp, by simp, by simp, rfl⟩
  have hfold := noSplit_foldl maxW (pySplit text) ([], []) []
    (fun w hw => ⟨⟨(pySplit_mem text w hw).1, (pySplit_mem text w hw).2⟩,
      hwords w hw⟩) hin
  rw [List.nil_append] at hfold
  obtain ⟨gs, gcur, h1, h2, hgs, hgcur, hgsw, hflat⟩ := hfold
  unfold break_text_into_lines_list
  by_cases hc : gcur = []
  · subst hc
    obtain ⟨k, hk⟩ := flatten_take_eq_take gs maxLines
    refine ⟨gs.take maxLines, k, ?_, ?_, ?_⟩
    · unfold flushLines
      rw [h2]
      rw [if_pos (by simp [joinSpace, joinSep])]
      rw [h1, List.map_take]
    · intro p hp
      exact hgs p (List.take_subset maxLines gs hp)
    · rw [hk]
      rw [show gs.flatten = pySplit text from by simpa using hflat]
  · have hcurne : (List.foldl (wrapStep maxW) ([], []) (pySplit text)).2 ≠ [] := by
      rw [h2]
      exact joinSpace_ne_nil gcur hc (fun x hx => (hgcur x hx).1)
    obtain ⟨k, hk⟩ := flatten_take_eq_take (gs ++ [gcur]) maxLines
    refine ⟨(gs ++ [gcur]).take maxLines, k, ?_, ?_, ?_⟩
    · unfold flushLines
      rw [if_neg (by simpa [List.isEmpty_iff] using hcurne)]
      rw [h1, h2, List.map_take, List.map_append]
      rfl
    · intro p hp
      rcases List.mem_append.mp (List.take_subset maxLines _ hp) with h | h
      · exact hgs p h
      · rw [List.mem_singleton] at h
        subst h
        exact hc
    · rw [hk]
      rw [show (gs ++ [gcur]).flatten = pySplit text from by
        simpa using hflat]

/-- Witness for C8: the text `"ab cd ef"` with `maxLineWidth = 5`. -/
theorem C8_word_boundary_preservation_witness :
    1 ≤ 5 ∧
    (∀ w ∈ pySplit "ab cd ef".toList, w.length ≤ 5) ∧
    (∃ (parts : List (List (List Char))) (k : Nat),
      break_text_into_lines_list "ab cd ef".toList 5 2 = parts.map joinSpace ∧
      (∀ p ∈ parts, p ≠ []) ∧
      parts.flatten = (pySplit "ab cd ef".toList).take k) :=
  ⟨by decide, by decide,
    C8_word_boundary_preservation "ab cd ef".toList 5 2 (by decide) (by decide)⟩

/-- Claim C9: with `maxLineWidth ≥ 1` the wrap loop (in particular its
hard-split inner `while` loop) always terminates — the fueled variant
returns `some` of the total function's value for every text — while at
`maxLineWidth = 0` the hard-split loop makes no progress: on the word `"a"`
it exhausts every fuel, and the whole fueled wrap returns `none`. -/
theorem C9_wrap_termination :
    (∀ (text : List Char) (maxW maxLines : Nat), 1 ≤ maxW →
      break_text_into_lines_opt text maxW maxLines =
        some (break_text_into_lines text maxW maxLines)) ∧
    (∀ fuel : Nat, hardSplitFuel fuel 0 ['a'] = none) ∧
    break_text_into_lines_opt ['a'] 0 1 = none := by
  refine ⟨fun text maxW maxLines hW => break_opt_eq text maxW maxLines hW,
    ?_, by decide⟩
  intro fuel
  induction fuel with
  | zero => rfl
  | succ f ih => simp [hardSplitFuel, ih]

/-- Witness for C9 at `maxLineWidth = 2`. -/
theorem C9_wrap_termination_witness :
    1 ≤ 2 ∧
    break_text_into_lines_opt "ab cd".toList 2 2 =
      some (break_text_into_lines "ab cd".toList 2 2) :=
  ⟨by decide, C9_wrap_termination.1 "ab cd".toList 2 2 (by decide)⟩

/-- Claim C10: for `maxLineWidth ≥ 1` and `maxLines ≥ 1`,
`break_text_into_lines` is idempotent: re-wrapping its output with the same
parameters reproduces it unchanged. -/
theorem C10_wrap_idempotent (text : List Char) (maxW maxLines : Nat)
    (hW : 1 ≤ maxW) (hL : 1 ≤ maxLines) :
    break_text_into_lines (break_text_into_lines text maxW maxLines) maxW maxLines =
      break_text_into_lines text maxW maxLines := by
  obtain ⟨G, hG, hchain, hlen, hEq⟩ := producer_struct maxW hW text maxLines
  unfold break_text_into_lines
  rw [hEq, wrap_list_fixed maxW maxLines G hG hchain hlen]

/-- Witness for C10 on a text that exercises both normal wrapping and the
hard split. -/
theorem C10_wrap_idempotent_witness :
    1 ≤ 4 ∧ 1 ≤ 3 ∧
    break_text_into_lines (break_text_into_lines "alpha bc def gg".toList 4 3) 4 3 =
      break_text_into_lines "alpha bc def gg".toList 4 3 :=
  ⟨by decide, by decide,
    C10_wrap_idempotent "alpha bc def gg".toList 4 3 (by decide) (by decide)⟩

/-! ## Lemmas: `splitOnNL`, for the reflow-structure claim -/

theorem splitOnNL_ne_nil : ∀ (s : List Char), splitOnNL s ≠ []
  | [] => by simp [splitOnNL]
  | c :: cs => by
    by_cases h : c = '\n'
    · simp [splitOnNL, h]
    · simp only [splitOnNL, h, if_false]
      cases hs : splitOnNL cs <;> simp

theorem splitOnNL_no_nl : ∀ (s : List Char), ∀ p ∈ splitOnNL s, '\n' ∉ p
  | [], p, hp => by
    simp only [splitOnNL, List.mem_singleton] at hp
    subst hp
    simp
  | c :: cs, p, hp => by
    by_cases h : c = '\n'
    · simp only [splitOnNL, h, if_true] at hp
      rcases List.mem_cons.mp hp with rfl | h2
      · simp
      · exact splitOnNL_no_nl cs p h2
    · simp only [splitOnNL, h, if_false] at hp
      cases hs : splitOnNL cs with
      | nil => exact absurd hs (splitOnNL_ne_nil cs)
      | cons q qs =>
        rw [hs] at hp
        rcases List.mem_cons.mp hp with rfl | h2
        · have hq : '\n' ∉ q := splitOnNL_no_nl cs q (by rw [hs]; simp)
          intro hx
          rcases List.mem_cons.mp hx with hx1 | hx2
          · exact h hx1.symm
          · exact hq hx2
        · exact splitOnNL_no_nl cs p (by rw [hs]; simp [h2])

theorem splitOnNL_append_nl : ∀ (a b : List Char), (∀ c ∈ a, c ≠ '\n') →
    splitOnNL (a ++ '\n' :: b) = a :: splitOnNL b
  | [], b, _ => by simp [splitOnNL]
  | c :: a', b, ha => by
    have hc : c ≠ '\n' := ha c (by simp)
    simp only [List.cons_append, splitOnNL, hc, if_false, List.append_eq]
    rw [splitOnNL_append_nl a' b (fun x hx => ha x (by simp [hx]))]

/-- Claim C2: `format_subtitle_lines` emits the kept blocks joined by a
double line break with a trailing double line break; a kept block with fewer
than 3 raw lines passes through byte-for-byte, and a kept block with at
least 3 raw lines keeps its first two raw lines (index and timing)
verbatim. -/
theorem C2_reflow_preserves_structure (content : List Char) (maxW maxLines : Nat) :
    format_subtitle_lines content maxW maxLines =
      joinDoubleNL ((keptBlocks content).map (processBlock maxW maxLines)) ++
        ['\n', '\n'] ∧
    (∀ b ∈ keptBlocks content,
      (splitOnNL b).length < 3 → processBlock maxW maxLines b = b) ∧
    (∀ b ∈ keptBlocks content, 3 ≤ (splitOnNL b).length →
      (splitOnNL (processBlock maxW maxLines b)).take 2 =
        (splitOnNL b).take 2) := by
  refine ⟨rfl, ?_, ?_⟩
  · intro b _ hlt
    unfold processBlock
    cases hs : splitOnNL b with
    | nil => rfl
    | cons l0 rest =>
      cases rest with
      | nil => rfl
      | cons l1 rest2 =>
        cases rest2 with
        | nil => rfl
        | cons l2 rest3 =>
          rw [hs] at hlt
          simp only [List.length_cons] at hlt
          omega
  · intro b hb hge
    unfold processBlock
    cases hs : splitOnNL b with
    | nil =>
      rw [hs] at hge
      simp at hge
    | cons l0 rest =>
      cases rest with
      | nil =>
        rw [hs] at hge
        simp at hge
      | cons l1 rest2 =>
        cases rest2 with
        | nil =>
          rw [hs] at hge
          simp at hge
        | cons l2 rest3 =>
          have h0 : ∀ c ∈ l0, c ≠ '\n' := by
            intro c hc heq
            exact splitOnNL_no_nl b l0 (by rw [hs]; simp) (heq ▸ hc)
          have h1 : ∀ c ∈ l1, c ≠ '\n' := by
            intro c hc heq
            exact splitOnNL_no_nl b l1 (by rw [hs]; simp) (heq ▸ hc)
          rw [splitOnNL_append_nl l0 _ h0, splitOnNL_append_nl l1 _ h1]
          simp

/-- Witness for C2 on a concrete two-block track (one well-formed block, one
malformed single-line block). -/
theorem C2_reflow_preserves_structure_witness :
    ("short".toList ∈
        keptBlocks "1\n00:00 --> 00:05\nhello world how are you\n\nshort".toList ∧
      (splitOnNL "short".toList).length < 3 ∧
      "1\n00:00 --> 00:05\nhello world how are you".toList ∈
        keptBlocks "1\n00:00 --> 00:05\nhello world how are you\n\nshort".toList ∧
      3 ≤ (splitOnNL "1\n00:00 --> 00:05\nhello world how are you".toList).length) ∧
    processBlock 11 2 "short".toList = "short".toList ∧
    (splitOnNL (processBlock 11 2 "1\n00:00 --> 00:05\nhello world how are you".toList)).take 2 =
      (splitOnNL "1\n00:00 --> 00:05\nhello world how are you".toList).take 2 :=
  ⟨⟨by decide, by decide, by decide, by decide⟩,
    (C2_reflow_preserves_structure
      "1\n00:00 --> 00:05\nhello world how are you\n\nshort".toList 11 2).2.1
      "short".toList (by decide) (by decide),
    (C2_reflow_preserves_structure
      "1\n00:00 --> 00:05\nhello world how are you\n\nshort".toList 11 2).2.2
      "1\n00:00 --> 00:05\nhello world how are you".toList (by decide) (by decide)⟩

/-! ## Claim C3: resume slicing -/

/-- Claim C3: on a sorted WorkList, a checkpoint path that occurs in the
list makes the orchestrator process exactly the suffix starting at its first
occurrence; a path that does not occur leaves the whole list to be
processed. -/
theorem C3_resume_slicing (paths : List String) (r : String)
    (hsorted : List.Pairwise (fun a b => a ≤ b) paths) :
    (r ∈ paths → ∃ i, i < paths.length ∧ paths[i]? = some r ∧
      (∀ j, j < i → paths[j]? ≠ some r) ∧
      filesToProcess paths (some r) = paths.drop i) ∧
    (r ∉ paths → filesToProcess paths (some r) = paths) := by
  constructor
  · intro hmem
    by_cases hr : r = ""
    · subst hr
      obtain ⟨p, ps, rfl⟩ := List.exists_cons_of_ne_nil (List.ne_nil_of_mem hmem)
      have hp : p = "" := by
        rcases List.mem_cons.mp hmem with h | h
        · exact h.symm
        · have hle : p ≤ "" := (List.pairwise_cons.mp hsorted).1 "" h
          have hge : "" ≤ p := String.le_iff_toList_le.mpr List.nil_le
          exact le_antisymm hle hge
      subst hp
      refine ⟨0, by simp, by simp, by intro j hj; omega, ?_⟩
      simp [filesToProcess, computeStartIndex]
    · have hex : ∃ x ∈ paths, (fun p => p == r) x = true := ⟨r, hmem, by simp⟩
      have hlt := List.findIdx_lt_length_of_exists hex
      refine ⟨paths.findIdx (fun p => p == r), hlt, ?_, ?_, ?_⟩
      · have hbeq := @List.findIdx_getElem _ (fun p => p == r) paths hlt
        rw [List.getElem?_eq_getElem hlt]
        simpa using hbeq
      · intro j hj hcontra
        have hj2 : j < paths.length :=
          lt_of_lt_of_le hj (List.findIdx_le_length (fun p => p == r))
        have hpj : paths[j] = r := by
          rw [List.getElem?_eq_getElem hj2] at hcontra
          exact Option.some.inj hcontra
        have hfalse := List.not_of_lt_findIdx hj
        rw [hpj] at hfalse
        simp at hfalse
      · simp [filesToProcess, computeStartIndex, hr, hmem]
  · intro hnmem
    by_cases hr : r = ""
    · simp [filesToProcess, computeStartIndex, hr]
    · simp [filesToProcess, computeStartIndex, hr, hnmem]

/-- Witness for C3 on the WorkList `[A, B, C, D]`, with checkpoint `C`
(found, slices to `[C, D]`) and checkpoint `X` (stale, full list). -/
theorem C3_resume_slicing_witness :
    List.Pairwise (fun a b : String => a ≤ b) ["A", "B", "C", "D"] ∧
    filesToProcess ["A", "B", "C", "D"] (some "X") = ["A", "B", "C", "D"] ∧
    (∃ i, i < (["A", "B", "C", "D"] : List String).length ∧
      (["A", "B", "C", "D"] : List String)[i]? = some "C" ∧
      (∀ j, j < i → (["A", "B", "C", "D"] : List String)[j]? ≠ some "C") ∧
      filesToProcess ["A", "B", "C", "D"] (some "C") =
        (["A", "B", "C", "D"] : List String).drop i) := by
  have hs : List.Pairwise (fun a b : String => a ≤ b) ["A", "B", "C", "D"] := by
    refine List.Pairwise.cons ?_ (List.Pairwise.cons ?_
      (List.Pairwise.cons ?_ (List.Pairwise.cons ?_ List.Pairwise.nil))) <;>
      intro x hx <;> fin_cases hx <;>
      exact String.le_iff_toList_le.mpr (by decide)
  refine ⟨hs, (C3_resume_slicing ["A", "B", "C", "D"] "X" hs).2 (by decide),
    (C3_resume_slicing ["A", "B", "C", "D"] "C" hs).1 (by decide)⟩

/-! ## Lemmas: the batch loop -/

theorem processItem_not_interrupted (env : Env) (sk fo : Bool) (f : String)
    (h : env.interruptDuring f = false) :
    processItem env sk fo f ≠ .interrupted := by
  intro hcon
  unfold processItem at hcon
  rw [h] at hcon
  simp only [Bool.false_eq_true, if_false] at hcon
  split at hcon
  · cases hcon
  · split at hcon
    · cases hcon
    · split at hcon
      · cases hcon
      · split at hcon
        · cases hcon
        · cases hcon

theorem runBatch_cons_skipped (env : Env) (sk fo : Bool) (sp : Option String)
    (f : String) (fs : List String) (p e : Nat)
    (h : processItem env sk fo f = .skipped) :
    runBatch env sk fo sp (f :: fs) p e = runBatch env sk fo sp fs p e := by
  simp [runBatch, h]

theorem runBatch_cons_ok (env : Env) (sk fo : Bool) (sp : Option String)
    (f : String) (fs : List String) (p e : Nat)
    (h : processItem env sk fo f = .ok) :
    runBatch env sk fo sp (f :: fs) p e = runBatch env sk fo sp fs (p + 1) e := by
  simp [runBatch, h]

theorem runBatch_cons_failed (env : Env) (sk fo : Bool) (sp : Option String)
    (f : String) (fs : List String) (p e : Nat)
    (h : processItem env sk fo f = .failed) :
    runBatch env sk fo sp (f :: fs) p e = runBatch env sk fo sp fs p (e + 1) := by
  simp [runBatch, h]

theorem runBatch_cons_interrupted (env : Env) (sk fo : Bool) (s : String)
    (f : String) (fs : List String) (p e : Nat)
    (h : processItem env sk fo f = .interrupted) (hs : s ≠ "") :
    runBatch env sk fo (some s) (f :: fs) p e =
      ⟨p, e, none, some 130, some f⟩ := by
  simp [runBatch, h, hs]

/-- Claim C4: when an interruption signal arrives while item `f` is being
processed (and no earlier item was interrupted), the run ends immediately
with exit status 130, the checkpoint records the current item `f` itself,
and the final summary is never printed. -/
theorem C4_interrupt_checkpoint_and_exit (env : Env) (skipExisting force : Bool)
    (sp : String) (f : String) (post : List String)
    (hsp : sp ≠ "") (hf : env.interruptDuring f = true) :
    ∀ (pre : List String) (p e : Nat),
      (∀ g ∈ pre, env.interruptDuring g = false) →
      (runBatch env skipExisting force (some sp) (pre ++ f :: post) p e).exitCode =
        some 130 ∧
      (runBatch env skipExisting force (some sp) (pre ++ f :: post) p e).checkpointSaved =
        some f ∧
      (runBatch env skipExisting force (some sp) (pre ++ f :: post) p e).finalSummary =
        none
  | [], p, e, _ => by
    have hint : processItem env skipExisting force f = .interrupted := by
      simp [processItem, hf]
    rw [List.nil_append,
      runBatch_cons_interrupted env skipExisting force sp f post p e hint hsp]
    exact ⟨rfl, rfl, rfl⟩
  | g :: pre', p, e, hpre => by
    have hg : env.interruptDuring g = false := hpre g (by simp)
    have hni := processItem_not_interrupted env skipExisting force g hg
    rw [List.cons_append]
    cases houtcome : processItem env skipExisting force g with
    | interrupted => exact absurd houtcome hni
    | skipped =>
      rw [runBatch_cons_skipped env skipExisting force (some sp) g _ p e houtcome]
      exact C4_interrupt_checkpoint_and_exit env skipExisting force sp f post
        hsp hf pre' p e (fun x hx => hpre x (by simp [hx]))
    | ok =>
      rw [runBatch_cons_ok env skipExisting force (some sp) g _ p e houtcome]
      exact C4_interrupt_checkpoint_and_exit env skipExisting force sp f post
        hsp hf pre' (p + 1) e (fun x hx => hpre x (by simp [hx]))
    | failed =>
      rw [runBatch_cons_failed env skipExisting force (some sp) g _ p e houtcome]
      exact C4_interrupt_checkpoint_and_exit env skipExisting force sp f post
        hsp hf pre' p (e + 1) (fun x hx => hpre x (by simp [hx]))

/-- A concrete environment in which an interruption signal arrives while
item `"b"` is processed. -/
def envInterruptB : Env where
  targetExists := fun _ => false
  interruptDuring := fun s => s == "b"
  preprocessOk := fun _ => true
  transcribeOk := fun _ => true
  srtProduced := fun _ => true

/-- Witness for C4: a three-item batch interrupted at the second item. -/
theorem C4_interrupt_checkpoint_and_exit_witness :
    ("state" : String) ≠ "" ∧ envInterruptB.interruptDuring "b" = true ∧
    (∀ g ∈ ["a"], envInterruptB.interruptDuring g = false) ∧
    ((runBatch envInterruptB true false (some "state") (["a"] ++ "b" :: ["c"]) 0 0).exitCode =
        some 130 ∧
      (runBatch envInterruptB true false (some "state") (["a"] ++ "b" :: ["c"]) 0 0).checkpointSaved =
        some "b" ∧
      (runBatch envInterruptB true false (some "state") (["a"] ++ "b" :: ["c"]) 0 0).finalSummary =
        none) :=
  ⟨by decide, by decide, by decide,
    C4_interrupt_checkpoint_and_exit envInterruptB true false "state" "b" ["c"]
      (by decide) (by decide) ["a"] 0 0 (by decide)⟩

theorem runBatch_no_interrupt (env : Env) (skipExisting force : Bool)
    (statePath : Option String) :
    ∀ (fs : List String) (p e : Nat),
      (∀ g ∈ fs, env.interruptDuring g = false) →
      runBatch env skipExisting force statePath fs p e =
        ⟨p + (fs.filter
            (fun g => processItem env skipExisting force g == .ok)).length,
          e + (fs.filter
            (fun g => processItem env skipExisting force g == .failed)).length,
          some (p + (fs.filter
              (fun g => processItem env skipExisting force g == .ok)).length,
            e + (fs.filter
              (fun g => processItem env skipExisting force g == .failed)).length),
          none, none⟩
  | [], p, e, _ => by simp [runBatch]
  | g :: fs', p, e, hfs => by
    have hg : env.interruptDuring g = false := hfs g (by simp)
    have hni := processItem_not_interrupted env skipExisting force g hg
    have htail : ∀ x ∈ fs', env.interruptDuring x = false :=
      fun x hx => hfs x (by simp [hx])
    cases houtcome : processItem env skipExisting force g with
    | interrupted => exact absurd houtcome hni
    | skipped =>
      rw [runBatch_cons_skipped env skipExisting force statePath g fs' p e houtcome,
        runBatch_no_interrupt env skipExisting force statePath fs' p e htail]
      simp [List.filter_cons, houtcome]
    | ok =>
      rw [runBatch_cons_ok env skipExisting force statePath g fs' p e houtcome,
        runBatch_no_interrupt env skipExisting force statePath fs' (p + 1) e htail]
      simp only [List.filter_cons, houtcome, beq_iff_eq, reduceCtorEq,
        if_true, if_false, List.length_cons, RunResult.mk.injEq,
        Option.some.injEq, Prod.mk.injEq, and_true, true_and]
      omega
    | failed =>
      rw [runBatch_cons_failed env skipExisting force statePath g fs' p e houtcome,
        runBatch_no_interrupt env skipExisting force statePath fs' p (e + 1) htail]
      simp only [List.filter_cons, houtcome, beq_iff_eq, reduceCtorEq,
        if_true, if_false, List.length_cons, RunResult.mk.injEq,
        Option.some.injEq, Prod.mk.injEq, and_true, true_and]
      omega

/-- Claim C5: when no interruption occurs, every item is attempted: the run
returns normally (no exit code, no checkpoint), the final summary is always
emitted with the session counters, the error counter counts exactly the
items classified `failed`, the processed counter exactly the items
classified `ok` — so no single item's failure halts the batch; and an item
(not skipped, not interrupted) is classified `failed` exactly when its
preprocess invocation fails, its transcribe invocation fails, or the
expected output artifact is absent. -/
theorem C5_failures_counted_batch_continues (env : Env)
    (skipExisting force : Bool) (statePath : Option String) :
    (∀ (fs : List String) (p e : Nat),
      (∀ g ∈ fs, env.interruptDuring g = false) →
      (runBatch env skipExisting force statePath fs p e).finalSummary =
        some ((runBatch env skipExisting force statePath fs p e).processed,
          (runBatch env skipExisting force statePath fs p e).errored) ∧
      (runBatch env skipExisting force statePath fs p e).exitCode = none ∧
      (runBatch env skipExisting force statePath fs p e).checkpointSaved = none ∧
      (runBatch env skipExisting force statePath fs p e).errored =
        e + (fs.filter
          (fun g => processItem env skipExisting force g == .failed)).length ∧
      (runBatch env skipExisting force statePath fs p e).processed =
        p + (fs.filter
          (fun g => processItem env skipExisting force g == .ok)).length) ∧
    (∀ g : String, env.interruptDuring g = false →
      (!force && skipExisting && env.targetExists g) = false →
      (processItem env skipExisting force g = .failed ↔
        (env.preprocessOk g = false ∨ env.transcribeOk g = false ∨
          env.srtProduced g = false))) := by
  constructor
  · intro fs p e hfs
    rw [runBatch_no_interrupt env skipExisting force statePath fs p e hfs]
    exact ⟨rfl, rfl, rfl, rfl, rfl⟩
  · intro g hint hskip
    unfold processItem
    rw [hint, hskip]
    simp only [Bool.false_eq_true, if_false]
    by_cases hpre : env.preprocessOk g
    · by_cases htr : env.transcribeOk g
      · by_cases hsrt : env.srtProduced g
        · simp [hpre, htr, hsrt]
        · simp [hpre, htr, hsrt]
      · simp [hpre, htr]
    · simp [hpre]

/-- A concrete environment with no interruptions in which preprocessing
fails for item `"b"` only. -/
def envFailB : Env where
  targetExists := fun _ => false
  interruptDuring := fun _ => false
  preprocessOk := fun s => !(s == "b")
  transcribeOk := fun _ => true
  srtProduced := fun _ => true

/-- Witness for C5: a two-item batch whose second item fails; the summary is
emitted with `processed = 1`, `errored = 1`. -/
theorem C5_failures_counted_batch_continues_witness :
    (∀ g ∈ (["a", "b"] : List String), envFailB.interruptDuring g = false) ∧
    ((runBatch envFailB true false none ["a", "b"] 0 0).finalSummary =
        some ((runBatch envFailB true false none ["a", "b"] 0 0).processed,
          (runBatch envFailB true false none ["a", "b"] 0 0).errored) ∧
      (runBatch envFailB true false none ["a", "b"] 0 0).exitCode = none ∧
      (runBatch envFailB true false none ["a", "b"] 0 0).checkpointSaved = none ∧
      (runBatch envFailB true false none ["a", "b"] 0 0).errored =
        0 + ((["a", "b"] : List String).filter
          (fun g => processItem envFailB true false g == .failed)).length ∧
      (runBatch envFailB true false none ["a", "b"] 0 0).processed =
        0 + ((["a", "b"] : List String).filter
          (fun g => processItem envFailB true false g == .ok)).length) ∧
    (runBatch envFailB true false none ["a", "b"] 0 0).processed = 1 ∧
    (runBatch envFailB true false none ["a", "b"] 0 0).errored = 1 :=
  ⟨by decide,
    (C5_failures_counted_batch_continues envFailB true false none).1
      ["a", "b"] 0 0 (by decide),
    by decide, by decide⟩

/-! ## Claim C6: `load_resume_state` on corrupt checkpoints -/

/-- Evaluation of `load_resume_state` over the possible read/parse outcomes:
an absent, unreadable, or unparseable state file yields `none` (the claim's
good cases), but a file whose content parses as JSON that is not an object —
for example the text `[]` — makes `state.get("next_file_to_process")` raise
`AttributeError`, which the `except (json.JSONDecodeError, IOError)` clause
does not catch: the function raises instead of returning `none`, refuting
the claim that no byte content can crash it. -/
theorem C6_load_resume_state_eval :
    load_resume_state (.value (.arr [])) = .raisedAttributeError ∧
    load_resume_state (.value (.num 42)) = .raisedAttributeError ∧
    load_resume_state .absent = .returned none ∧
    load_resume_state .ioError = .returned none ∧
    load_resume_state .parseError = .returned none ∧
    (∀ fields, load_resume_state (.value (.obj fields)) =
      .returned (dictGet fields "next_file_to_process")) :=
  ⟨rfl, rfl, rfl, rfl, rfl, fun _ => rfl⟩
